import Mathlib

/-!
Verification of the `from_zk_to_stark` cryptographic primitives.

This file shallowly embeds the four Rust source files
(`src/algebra/src/finite_field.rs`, `src/algebra/src/polynomial.rs`,
`src/crypto-primitives/src/hash.rs`, `src/crypto-primitives/src/merkle_tree.rs`)
and proves or refutes the specified properties.

Modelling conventions:
* A `FieldElement` is represented by its raw stored `i128` value as an `Int`;
  the shared `FiniteField` is the prime `p : Int` passed to every operation.
* Rust `%` on `i128` is truncating remainder, i.e. `Int.tmod`; Rust `/` is
  truncating division, i.e. `Int.tdiv`; `i128::rem_euclid` is `Int.emod`
  (they agree for every non-zero modulus: both return the least non-negative
  remainder).
* Panics (asserts, out-of-bounds indexing, `unwrap`) are modelled as
  `Option.none`; the `while` loop of polynomial division, which need not
  terminate, takes explicit fuel.
-/
namespace FieldElement

/-- Embeds `FieldElement::abs` (finite_field.rs:206-219): `rem_euclid` by the prime,
then — only when the stored value was negative — the prime is added again. -/
def abs (p a : Int) : Int :=
  let value := a % p
  if a < 0 then value + p else value

/-- Embeds `PartialEq for FieldElement` (finite_field.rs:14-22), for two elements of
the same field: compares `element % prime` with Rust's truncating `%`. -/
def eq (p a b : Int) : Bool :=
  a.tmod p == b.tmod p

/-- Embeds `Add for FieldElement` (finite_field.rs:30-44): raw sum, then `abs`. -/
def add (p a b : Int) : Int := abs p (a + b)

/-- Embeds `Sub for FieldElement` (finite_field.rs:73-86): raw difference, then `abs`. -/
def sub (p a b : Int) : Int := abs p (a - b)

/-- Embeds `Mul for FieldElement` (finite_field.rs:113-124): product of the two
`abs`-reduced operands, then `abs`. -/
def mul (p a b : Int) : Int := abs p (abs p a * abs p b)

/-- Embeds `Neg for FieldElement` (finite_field.rs:168-177): `prime - element`,
with no reduction. -/
def neg (p a : Int) : Int := p - a

/-- Embeds `FieldElement::value` (finite_field.rs:194-196): `self.abs().element`. -/
def value (p a : Int) : Int := abs p a

/-- Embeds `FieldElement::pow` (finite_field.rs:198-204): starting from `self`,
squares the running result `y.element` times (a negative exponent gives an
empty Rust range, hence no iterations). -/
def pow (p base y : Int) : Int :=
  (fun r => mul p r r)^[y.toNat] base

/-- The recursion of `FiniteField::extended_euclidean`, with structural fuel
so that the definition computes; `|a| < fuel` always holds on the recursive
path (`extended_euclidean_congr` below), so the fuel-exhausted branch is
unreachable and `extended_euclidean` satisfies exactly the source's
recursion (`extended_euclidean_rec`). -/
def extended_euclidean_go : Nat → Int → Int → Int × Int × Int
  | 0, _, b => (b, 0, 1)
  | fuel + 1, a, b =>
    if a = 0 then (b, 0, 1)
    else
      let r := extended_euclidean_go fuel (Int.tmod b a) a
      (r.1, r.2.2 - (Int.tdiv b a) * r.2.1, r.2.1)

/-- Embeds `FiniteField::extended_euclidean` (finite_field.rs:251-260), on Rust
`i128` values: truncating `%` and `/`. -/
def extended_euclidean (a b : Int) : Int × Int × Int :=
  extended_euclidean_go (a.natAbs + 1) a b

/-- Embeds `FieldElement::inverse` (finite_field.rs:180-192): Bezout coefficient of
the stored value against the prime, shifted by `prime` when negative
(`i128::abs` otherwise), reduced by `%` and finally `abs`. -/
def inverse (p a : Int) : Int :=
  let xgcd := extended_euclidean a p
  let inv := if xgcd.2.1 < 0 then p + xgcd.2.1 else |xgcd.2.1|
  abs p (Int.tmod inv p)

end FieldElement

namespace Poly

/-- Trailing-zero trimming (polynomial.rs:76-82): pop the last coefficient
while it equals the field's zero. -/
def trim (p : Int) (c : List Int) : List Int :=
  (c.reverse.dropWhile (fun e => FieldElement.eq p e 0)).reverse

/-- The untrimmed coefficient-wise sum of `Add for Polynomial`
(polynomial.rs:63-74): zip the common prefix with field addition, then chain
the leftover tails of both operands (one of which is empty). -/
def addRaw (p : Int) (a b : List Int) : List Int :=
  List.zipWith (fun x y => FieldElement.add p x y) a b
    ++ a.drop (min a.length b.length) ++ b.drop (min a.length b.length)

/-- Embeds `Add for Polynomial` (polynomial.rs:54-88): raw sum, then trimming. -/
def add (p : Int) (a b : List Int) : List Int := trim p (addRaw p a b)

/-- Embeds `Neg for Polynomial` (polynomial.rs:228-242): coefficient-wise
`FieldElement` negation (which performs no reduction). -/
def neg (p : Int) (c : List Int) : List Int :=
  c.map (fun x => FieldElement.neg p x)

/-- Embeds `Sub for Polynomial` (polynomial.rs:163-186): `self + rhs.neg()`. -/
def sub (p : Int) (a b : List Int) : List Int := add p a (neg p b)

/-- Embeds `Mul for Polynomial` (polynomial.rs:123-141): a vector of
`len(a) + len(b) - 1` zeros, then `result[i+j] += a[i] * b[j]` over all index
pairs, using the field's compound addition and multiplication.  (When both
operands are empty the Rust length computation `0 + 0 - 1` underflows and
panics; the claims below never multiply two empty polynomials.) -/
def mul (p : Int) (a b : List Int) : List Int :=
  (List.range a.length).foldl
    (fun res i =>
      (List.range b.length).foldl
        (fun r j =>
          r.set (i + j)
            (FieldElement.add p (r.getD (i + j) 0)
              (FieldElement.mul p (a.getD i 0) (b.getD j 0))))
        res)
    (List.replicate (a.length + b.length - 1) 0)

/-- Embeds `Polynomial::evaluate` (polynomial.rs:325-336): early return of zero for
an empty coefficient list, otherwise a running accumulator and power of `x`
folded over the coefficients from lowest to highest degree. -/
def evaluate (p : Int) (c : List Int) (x : Int) : Int :=
  match c with
  | [] => 0
  | _ =>
    (c.foldl
      (fun (acc : Int × Int) coeff =>
        (FieldElement.add p acc.1 (FieldElement.mul p coeff acc.2),
         FieldElement.mul p acc.2 x))
      ((0 : Int), (1 : Int))).1

/-- Embeds `Polynomial::degree` (polynomial.rs:303-314): `-1` for an empty
coefficient list; otherwise scan the reversed list for the first coefficient
that differs from the field's zero and return `len - index` (note: not
`len - index - 1`), or `0` when every coefficient is zero. -/
def degree (p : Int) (c : List Int) : Int :=
  if c.isEmpty then -1
  else
    match c.reverse.findIdx? (fun s => !(FieldElement.eq p s 0)) with
    | some index => (c.length : Int) - (index : Int)
    | none => 0

/-- Embeds `Polynomial::leading_coefficient_index` (polynomial.rs:316-323): the
highest index whose coefficient differs from the field's zero, or `0` when
there is none. -/
def leading_coefficient_index (p : Int) (c : List Int) : Nat :=
  match c.reverse.findIdx? (fun s => !(FieldElement.eq p s 0)) with
  | some index => c.length - 1 - index
  | none => 0

/-- The `while` loop of `Div for Polynomial` (polynomial.rs:200-215), with
explicit fuel because the source loop need not terminate: while the dividend
is at least as long as the divisor, take the raw value of the dividend's
*last* coefficient, divide it by the divisor's leading raw value with Rust's
truncating integer division `/` (not field division), write that raw
quotient into the result vector, and subtract `term * rhs` from the
dividend. -/
def divLoop (p : Int) (rhs : List Int) (b : Int) :
    Nat → List Int → List Int → Option (List Int × List Int)
  | 0, _, _ => none
  | fuel + 1, result, dividend =>
    if rhs.length ≤ dividend.length then
      match dividend.getLast? with
      | none => none
      | some a =>
        let leading_quotient := Int.tdiv a b
        let idx := dividend.length - rhs.length
        let temp_quotient := (List.replicate (idx + 1) (0 : Int)).set idx leading_quotient
        divLoop p rhs b fuel (result.set idx leading_quotient)
          (sub p dividend (mul p temp_quotient rhs))
    else some (result, dividend)

/-- Embeds `Div for Polynomial` (polynomial.rs:188-226): the quotient length
`len(lhs) - len(rhs) + 1` underflows (panics) when the dividend is shorter
than the divisor; the divisor's leading coefficient is read at
`leading_coefficient_index` (an empty divisor panics); then the loop runs. -/
def div (p : Int) (lhs rhs : List Int) (fuel : Nat) :
    Option (List Int × List Int) :=
  if lhs.length < rhs.length then none
  else
    let result := List.replicate (lhs.length - rhs.length + 1) (0 : Int)
    match rhs.get? (leading_coefficient_index p rhs) with
    | none => none
    | some b => divLoop p rhs b fuel result lhs

/-- The `basis` local of `Polynomial::lagrange_interpolation`
(polynomial.rs:351-356): `(&x - &[x_j]) * [(x_i - x_j).inverse()]` where
`x` is `from_slice(&[0, 1])`. -/
def lagrangeBasis (p : Int) (xi xj : Int) : List Int :=
  mul p (sub p [0, 1] [xj]) [FieldElement.inverse p (FieldElement.sub p xi xj)]

/-- The `value` local of `Polynomial::lagrange_interpolation`
(polynomial.rs:345-358): starting from `[y_i]`, the inner loop over the
indexed points multiplies by the basis for every `j ≠ i`. -/
def lagrangeValue (p : Int) (E : List (Nat × (Int × Int))) (i : Nat)
    (xi yi : Int) : List Int :=
  E.foldl
    (fun value je => if i = je.1 then value else mul p value (lagrangeBasis p xi je.2.1))
    [yi]

/-- Embeds `Polynomial::lagrange_interpolation` (polynomial.rs:338-362): the outer
loop over the indexed points sums each point's `value` polynomial starting
from the empty polynomial. -/
def lagrange_interpolation (p : Int) (points : List (Int × Int)) : List Int :=
  (points.enum).foldl
    (fun acc ie => add p acc (lagrangeValue p points.enum ie.1 ie.2.1 ie.2.2))
    []

end Poly

namespace RescueHash

/-- The `RescueHash` struct (hash.rs:9-18): S-box exponent, its inverse,
rate, capacity, MDS matrix and round constants (the shared field is the
prime passed to `hash`). -/
structure Params where
  alpha : Int
  alpha_inv : Int
  rate : Nat
  capacity : Nat
  mds_matrix : List (List Int)
  constants : List Int

/-- State initialisation of `RescueHash::hash` (hash.rs:22-29): the vector
`t` is the elementwise product of the one-element arrays `[zero]` and
`[element(state_len)]` — hence a single zero, not `state_len` zeros — and
the state is `[value]` with `t` appended. -/
def initState (p : Int) (state_len : Nat) (value : Int) : List Int :=
  let t := List.zipWith (fun a b => FieldElement.mul p a b) [0] [(state_len : Int)]
  value :: t

/-- One linear round of `RescueHash::hash` (hash.rs:33-44 and 47-58, which
are identical, including the round-constant offset `2*rate*state_len`):
`temp[i]` accumulates the matrix–vector product row by row, then every state
entry `i` becomes `temp[i] + constants[2*rate*state_len + i].abs()`.
Out-of-bounds `ndarray` indexing panics, modelled as `none`. -/
def round (p : Int) (h : Params) (state : List Int) : Option (List Int) := do
  let state_len := h.rate + h.capacity
  let temp ← (List.range state_len).mapM (fun i =>
    (List.range state_len).foldlM (fun acc j => do
      let m ← (h.mds_matrix.get? i).bind (fun row => row.get? j)
      let s ← state.get? j
      pure (FieldElement.add p acc (FieldElement.mul p m s))) (0 : Int))
  (List.range state.length).mapM (fun i => do
    let t ← temp.get? i
    let k ← h.constants.get? (2 * h.rate * state_len + i)
    pure (FieldElement.add p t (FieldElement.abs p k)))

/-- Embeds `RescueHash::hash` (hash.rs:21-61): initialise the two-entry state, then
two identical linear rounds and return `state[0]`.  The two S-box
applications (hash.rs:31 and hash.rs:46) call `state.map(...)`, which
returns a *new* array that the source immediately discards, so they do not
contribute to the result; the discarded computations are kept here as unused
bindings. -/
def hash (p : Int) (h : Params) (value : Int) : Option Int := do
  let state_len := h.rate + h.capacity
  let state := initState p state_len value
  let _sbox := state.map (fun x => FieldElement.pow p x h.alpha)
  let state1 ← round p h state
  let _sbox_inv := state1.map (fun x => FieldElement.pow p x h.alpha_inv)
  let state2 ← round p h state1
  state2.get? 0

end RescueHash

namespace MerkleTree

/-- The mutable `MerkleTree` state (merkle_tree.rs:6-11): the hashed leaf
level and the accumulated levels (the field and the hasher are passed to
each operation). -/
structure State where
  leafs : List Int
  levels : List (List Int)
deriving DecidableEq

/-- Embeds `MerkleTree::new` (merkle_tree.rs:15-32): requires a non-zero leaf count
with `len & (len - 1) == 0`, hashes every leaf, and stores the hashed level
as both `leafs` and the single entry of `levels`.  Failed asserts are
modelled as `none`. -/
def new (h : Int → Int) (leafs : List Int) : Option State :=
  let leafs_len := leafs.length
  if leafs_len = 0 then none
  else if leafs_len &&& (leafs_len - 1) ≠ 0 then none
  else
    let hashed := leafs.map h
    some ⟨hashed, [hashed]⟩

/-- Rust's `Iterator::step_by(2)`: every second element starting from the
first. -/
def stepBy2 : List Int → List Int
  | [] => []
  | [a] => [a]
  | a :: _ :: t => a :: stepBy2 t

/-- The `while` loop of `MerkleTree::commit` (merkle_tree.rs:37-57): while
the current level has more than one entry, split it into the elements at
even positions (`step_by(2)`) and odd positions (`skip(1).step_by(2)`),
hash the field sum of each pair into a parent level, push that level, and
continue from it.  Returns the pushed levels and the final current level. -/
def commitLoop_go (p : Int) (h : Int → Int) :
    Nat → List Int → List (List Int) → List (List Int) × List Int
  | 0, curr, acc => (acc, curr)
  | fuel + 1, curr, acc =>
    if 1 < curr.length then
      let odd_leafs := stepBy2 curr
      let even_leafs := stepBy2 (curr.drop 1)
      let parents := List.zipWith (fun l r => h (FieldElement.add p l r)) odd_leafs even_leafs
      commitLoop_go p h fuel parents (acc ++ [parents])
    else (acc, curr)

/-- The wrapper `commitLoop p h curr acc` runs the loop with fuel `curr.length`, which
`commitLoop_congr` shows is never exhausted (each iteration's parent level
is strictly shorter), so the loop satisfies exactly the source's recursion
(`commitLoop_rec`). -/
def commitLoop (p : Int) (h : Int → Int) (curr : List Int)
    (acc : List (List Int)) : List (List Int) × List Int :=
  commitLoop_go p h curr.length curr acc

/-- Embeds `MerkleTree::commit` (merkle_tree.rs:34-60): runs the level-building
loop from the stored hashed leafs, appends every built level to `levels`,
and returns `curr_level.first().unwrap()` (`none` models the unwrap panic
on an empty final level). -/
def commit (p : Int) (h : Int → Int) (t : State) : Option (Int × State) :=
  let r := commitLoop p h t.leafs []
  match r.2.head? with
  | none => none
  | some root => some (root, ⟨t.leafs, t.levels ++ r.1⟩)

/-- The `while` loop of `MerkleTree::prove` (merkle_tree.rs:69-99), walking
the levels from the leaf level upward.  On a one-entry level it asserts the
folded element equals that entry (panic modelled as `none`), pushes the
element and returns the path.  Otherwise it locates the element by field
equality, pushes element and sibling in even-left order, folds
`hash(sibling + element)` and continues; a missing element yields `none`. -/
def proveLoop (p : Int) (h : Int → Int) :
    List (List Int) → Int → List Int → Option (List Int)
  | [], _, result => some result
  | lvl :: rest, element, result =>
    if lvl.length = 1 then
      match lvl.head? with
      | none => none
      | some top =>
        if FieldElement.eq p element top then some (result ++ [element]) else none
    else
      match lvl.findIdx? (fun x => FieldElement.eq p x element) with
      | none => none
      | some i =>
        if i % 2 = 0 then
          match lvl.get? (i + 1) with
          | none => none
          | some sibling =>
            proveLoop p h rest (h (FieldElement.add p sibling element))
              (result ++ [element, sibling])
        else
          match lvl.get? (i - 1) with
          | none => none
          | some sibling =>
            proveLoop p h rest (h (FieldElement.add p sibling element))
              (result ++ [sibling, element])

/-- Embeds `MerkleTree::prove` (merkle_tree.rs:63-102). -/
def prove (p : Int) (h : Int → Int) (t : State) (element : Int) : Option (List Int) :=
  proveLoop p h t.levels element []

/-- Embeds `MerkleTree::verify` (merkle_tree.rs:105-137): asserts
`index < 1 << path.len()` (panic modelled as `none`; an empty path panics on
`path[0]`), then recursively folds the path using the index's bits to pick
the operand order, comparing against the root on the last entry. -/
def verify (p : Int) (h : Int → Int) (root : Int) :
    Nat → List Int → Int → Option Bool
  | index, path, leaf =>
    if 2 ^ path.length ≤ index then none
    else
      match path with
      | [] => none
      | [s] =>
        if index = 0 then some (FieldElement.eq p root (h (FieldElement.add p leaf s)))
        else some (FieldElement.eq p root (h (FieldElement.add p s leaf)))
      | s :: rest =>
        if index % 2 = 0 then
          verify p h root (index >>> 1) rest (h (FieldElement.add p leaf s))
        else
          verify p h root (index >>> 1) rest (h (FieldElement.add p s leaf))

end MerkleTree

/-- A concrete deterministic `Hasher` implementation used for closed-form
evaluations of the generic Merkle tree: `hash(v) = (v + 1).abs()` over the
prime-97 field (`MerkleTree` is generic over any `H: Hasher + Clone`). -/
def hC (v : Int) : Int := FieldElement.abs 97 (v + 1)

/-- Reference semantics for the proofs about the polynomial code: the value
of a raw coefficient list at a point of `ZMod p` (Horner form). -/
def sem (p : ℕ) (c : List Int) (x : ZMod p) : ZMod p :=
  c.foldr (fun a r => (a : ZMod p) + x * r) 0

namespace FieldElement

theorem natAbs_tmod_lt (b : Int) {a : Int} (h : a ≠ 0) :
    (Int.tmod b a).natAbs < a.natAbs := by
  have habs : (Int.tmod b a).natAbs = b.natAbs % a.natAbs := by
    cases b <;> cases a <;>
      simp only [Int.tmod, Int.natAbs_neg, Int.ofNat_eq_coe, Int.natAbs_negSucc] <;>
      norm_cast
  rw [habs]
  exact Nat.mod_lt _ (Int.natAbs_pos.mpr h)

theorem extended_euclidean_congr :
    ∀ (fuel1 fuel2 : Nat) (a b : Int), a.natAbs < fuel1 → a.natAbs < fuel2 →
      extended_euclidean_go fuel1 a b = extended_euclidean_go fuel2 a b := by
  intro fuel1
  induction fuel1 with
  | zero => omega
  | succ f1 ih =>
    intro fuel2 a b h1 h2
    cases fuel2 with
    | zero => omega
    | succ f2 =>
      by_cases ha : a = 0
      · simp [extended_euclidean_go, ha]
      · have hlt := natAbs_tmod_lt b ha
        simp only [extended_euclidean_go, if_neg ha]
        rw [ih f2 (Int.tmod b a) a (by omega) (by omega)]

/-- The embedded `extended_euclidean` satisfies the source's recursion. -/
theorem extended_euclidean_rec (a b : Int) :
    extended_euclidean a b =
      if a = 0 then (b, 0, 1)
      else
        let r := extended_euclidean (Int.tmod b a) a
        (r.1, r.2.2 - (Int.tdiv b a) * r.2.1, r.2.1) := by
  by_cases ha : a = 0
  · simp [extended_euclidean, extended_euclidean_go, ha]
  · have hlt := natAbs_tmod_lt b ha
    rw [if_neg ha]
    simp only [extended_euclidean]
    rw [extended_euclidean_congr ((Int.tmod b a).natAbs + 1) a.natAbs (Int.tmod b a) a
      (by omega) (by omega)]
    rw [extended_euclidean_go, if_neg ha]

end FieldElement

namespace Poly

theorem eq_zero_iff_dvd (p x : Int) : FieldElement.eq p x 0 = true ↔ p ∣ x := by
  simp only [FieldElement.eq, Int.zero_tmod, beq_iff_eq]
  exact (Int.dvd_iff_tmod_eq_zero).symm

end Poly

namespace MerkleTree

theorem stepBy2_length : ∀ l : List Int, (stepBy2 l).length = (l.length + 1) / 2
  | [] => rfl
  | [_] => by simp [stepBy2]
  | a :: b :: t => by
    have ih := stepBy2_length t
    simp only [stepBy2, List.length_cons, ih]
    omega

theorem commitLoop_congr (p : Int) (h : Int → Int) :
    ∀ (fuel1 fuel2 : Nat) (curr : List Int) (acc : List (List Int)),
      curr.length ≤ fuel1 → curr.length ≤ fuel2 →
      commitLoop_go p h fuel1 curr acc = commitLoop_go p h fuel2 curr acc := by
  intro fuel1
  induction fuel1 with
  | zero =>
    intro fuel2 curr acc h1 h2
    have hc : curr.length = 0 := by omega
    cases fuel2 with
    | zero => rfl
    | succ f2 =>
      simp [commitLoop_go, hc]
  | succ f1 ih =>
    intro fuel2 curr acc h1 h2
    by_cases hlen : 1 < curr.length
    · cases fuel2 with
      | zero => omega
      | succ f2 =>
        simp only [commitLoop_go, if_pos hlen]
        have hplen : (List.zipWith (fun l r => h (FieldElement.add p l r))
            (stepBy2 curr) (stepBy2 (curr.drop 1))).length < curr.length := by
          simp only [List.length_zipWith, stepBy2_length, List.length_drop]
          omega
        exact ih f2 _ _ (by omega) (by omega)
    · cases fuel2 with
      | zero =>
        have hc : curr.length = 0 := by omega
        simp [commitLoop_go, hc]
      | succ f2 => simp [commitLoop_go, if_neg hlen]

/-- The embedded `commitLoop` satisfies the source loop's recursion. -/
theorem commitLoop_rec (p : Int) (h : Int → Int) (curr : List Int)
    (acc : List (List Int)) :
    commitLoop p h curr acc =
      if 1 < curr.length then
        let parents := List.zipWith (fun l r => h (FieldElement.add p l r))
          (stepBy2 curr) (stepBy2 (curr.drop 1))
        commitLoop p h parents (acc ++ [parents])
      else (acc, curr) := by
  have hplen : (List.zipWith (fun l r => h (FieldElement.add p l r))
      (stepBy2 curr) (stepBy2 (curr.drop 1))).length = curr.length / 2 := by
    simp only [List.length_zipWith, stepBy2_length, List.length_drop]
    omega
  by_cases hlen : 1 < curr.length
  · rw [if_pos hlen]
    have hc : curr.length = (curr.length - 1) + 1 := by omega
    conv_lhs => rw [commitLoop, hc]
    rw [commitLoop_go, if_pos hlen]
    simp only [commitLoop]
    exact commitLoop_congr p h (curr.length - 1) _ _ _ (by omega) (by omega)
  · rw [if_neg hlen]
    simp only [commitLoop]
    cases hc : curr.length with
    | zero => rfl
    | succ n => rw [commitLoop_go, if_neg hlen]

end MerkleTree

theorem and_pred_eq_zero_iff {n : Nat} (hn : n ≠ 0) :
    n &&& (n - 1) = 0 ↔ ∃ k, n = 2 ^ k := by
  induction n using Nat.strong_induction_on with
  | _ n ih =>
    have hsplit : n &&& (n - 1) = 2 * ((n / 2) &&& ((n - 1) / 2)) := by
      have hparity : (n &&& (n - 1)) % 2 = 0 := by
        rcases Nat.mod_two_eq_zero_or_one (n &&& (n - 1)) with hz | ho
        · exact hz
        · exfalso
          have hboth := Nat.and_mod_two_eq_one.mp ho
          omega
      conv_lhs => rw [← Nat.div_add_mod (n &&& (n - 1)) 2]
      rw [Nat.and_div_two, hparity]
      omega
    rcases Nat.even_or_odd n with ⟨m, hm⟩ | ⟨m, hm⟩
    · -- n = 2 * m with m ≥ 1
      have hm1 : n = 2 * m := by omega
      have hmpos : m ≠ 0 := by omega
      have hd1 : n / 2 = m := by omega
      have hd2 : (n - 1) / 2 = m - 1 := by omega
      rw [hsplit, hd1, hd2]
      constructor
      · intro hz
        have hmz : m &&& (m - 1) = 0 := by omega
        obtain ⟨k, hk⟩ := (ih m (by omega) hmpos).mp hmz
        exact ⟨k + 1, by rw [hm1, hk]; ring⟩
      · rintro ⟨k, hk⟩
        cases k with
        | zero => omega
        | succ j =>
          have hmk : m = 2 ^ j := by
            have : 2 * m = 2 * 2 ^ j := by rw [← hm1, hk]; ring
            omega
          have := (ih m (by omega) hmpos).mpr ⟨j, hmk⟩
          omega
    · -- n = 2 * m + 1
      have hd1 : n / 2 = m := by omega
      have hd2 : (n - 1) / 2 = m := by omega
      rw [hsplit, hd1, hd2, Nat.and_self]
      constructor
      · intro hz
        exact ⟨0, by omega⟩
      · rintro ⟨k, hk⟩
        cases k with
        | zero => omega
        | succ j =>
          exfalso
          have : n % 2 = 0 := by
            rw [hk, pow_succ]
            omega
          omega

theorem natCast_int_zmod_self (p : ℕ) : (((p : ℕ) : Int) : ZMod p) = 0 := by
  rw [Int.cast_natCast, ZMod.natCast_self]

theorem castEmod (p : ℕ) (a : Int) : ((a % (p : Int) : Int) : ZMod p) = (a : ZMod p) := by
  rw [Int.emod_def]
  push_cast
  rw [ZMod.natCast_self]
  ring

theorem castTmod (p : ℕ) (a : Int) :
    ((Int.tmod a (p : Int) : Int) : ZMod p) = (a : ZMod p) := by
  rw [Int.tmod_def]
  push_cast
  rw [ZMod.natCast_self]
  ring

theorem castAbs (p : ℕ) (a : Int) :
    ((FieldElement.abs (p : Int) a : Int) : ZMod p) = (a : ZMod p) := by
  simp only [FieldElement.abs]
  split_ifs with h
  · rw [Int.cast_add, castEmod, natCast_int_zmod_self, add_zero]
  · exact castEmod p a

theorem castAdd (p : ℕ) (a b : Int) :
    ((FieldElement.add (p : Int) a b : Int) : ZMod p) = (a : ZMod p) + b := by
  rw [FieldElement.add, castAbs, Int.cast_add]

theorem castSub (p : ℕ) (a b : Int) :
    ((FieldElement.sub (p : Int) a b : Int) : ZMod p) = (a : ZMod p) - b := by
  rw [FieldElement.sub, castAbs, Int.cast_sub]

theorem castMul (p : ℕ) (a b : Int) :
    ((FieldElement.mul (p : Int) a b : Int) : ZMod p) = (a : ZMod p) * b := by
  rw [FieldElement.mul, castAbs, Int.cast_mul, castAbs, castAbs]

theorem castNeg (p : ℕ) (a : Int) :
    ((FieldElement.neg (p : Int) a : Int) : ZMod p) = -(a : ZMod p) := by
  rw [FieldElement.neg, Int.cast_sub, natCast_int_zmod_self]
  ring

theorem eq_cast (p : ℕ) {a b : Int} (h : FieldElement.eq (p : Int) a b = true) :
    (a : ZMod p) = (b : ZMod p) := by
  simp only [FieldElement.eq, beq_iff_eq] at h
  calc (a : ZMod p) = ((Int.tmod a (p : Int) : Int) : ZMod p) := (castTmod p a).symm
    _ = ((Int.tmod b (p : Int) : Int) : ZMod p) := by rw [h]
    _ = (b : ZMod p) := castTmod p b

theorem sem_nil (p : ℕ) (x : ZMod p) : sem p [] x = 0 := rfl

theorem sem_cons (p : ℕ) (a : Int) (t : List Int) (x : ZMod p) :
    sem p (a :: t) x = (a : ZMod p) + x * sem p t x := rfl

theorem sem_append (p : ℕ) (c d : List Int) (x : ZMod p) :
    sem p (c ++ d) x = sem p c x + x ^ c.length * sem p d x := by
  induction c with
  | nil => simp [sem_nil, sem_cons]
  | cons a t ih =>
    simp only [List.cons_append, sem_cons, ih, List.length_cons, pow_succ]
    ring

theorem sem_trim (p : ℕ) (c : List Int) (x : ZMod p) :
    sem p (Poly.trim (p : Int) c) x = sem p c x := by
  rw [Poly.trim]
  induction c using List.reverseRecOn with
  | nil => simp
  | append_singleton c a ih =>
    rw [List.reverse_append]
    simp only [List.reverse_cons, List.reverse_nil, List.nil_append, List.singleton_append,
      List.dropWhile_cons]
    by_cases h : FieldElement.eq (p : Int) a 0 = true
    · rw [if_pos h]
      rw [ih, sem_append]
      have ha : (a : ZMod p) = 0 := by
        have := eq_cast p h
        simpa using this
      simp [sem_cons, sem_nil, ha]
    · rw [if_neg (by simpa using h)]
      rw [List.reverse_cons, List.reverse_reverse]

theorem sem_addRaw (p : ℕ) (c d : List Int) (x : ZMod p) :
    sem p (Poly.addRaw (p : Int) c d) x = sem p c x + sem p d x := by
  induction c generalizing d with
  | nil =>
    simp [Poly.addRaw, sem_nil]
  | cons a t ih =>
    cases d with
    | nil =>
      simp [Poly.addRaw, sem_nil]
    | cons b u =>
      have hstep : Poly.addRaw (p : Int) (a :: t) (b :: u)
          = FieldElement.add (p : Int) a b :: Poly.addRaw (p : Int) t u := by
        simp only [Poly.addRaw, List.zipWith_cons_cons, List.length_cons,
          Nat.succ_min_succ, List.drop_succ_cons, List.cons_append]
      rw [hstep, sem_cons, ih, sem_cons, sem_cons, castAdd]
      ring

theorem sem_add (p : ℕ) (c d : List Int) (x : ZMod p) :
    sem p (Poly.add (p : Int) c d) x = sem p c x + sem p d x := by
  rw [Poly.add, sem_trim, sem_addRaw]

theorem sem_neg (p : ℕ) (c : List Int) (x : ZMod p) :
    sem p (Poly.neg (p : Int) c) x = -sem p c x := by
  induction c with
  | nil => simp [Poly.neg, sem_nil]
  | cons a t ih =>
    simp only [Poly.neg, List.map_cons, sem_cons] at ih ⊢
    rw [ih, castNeg]
    ring

theorem sem_sub (p : ℕ) (c d : List Int) (x : ZMod p) :
    sem p (Poly.sub (p : Int) c d) x = sem p c x - sem p d x := by
  rw [Poly.sub, sem_add, sem_neg]
  ring

theorem sem_set (p : ℕ) (x : ZMod p) :
    ∀ (r : List Int) (k : ℕ) (v : Int), k < r.length →
      sem p (r.set k (FieldElement.add (p : Int) (r.getD k 0) v)) x
        = sem p r x + x ^ k * (v : ZMod p) := by
  intro r
  induction r with
  | nil => intro k v hk; simp at hk
  | cons a t ih =>
    intro k v hk
    cases k with
    | zero =>
      simp only [List.set_cons_zero, List.getD_cons_zero, sem_cons, castAdd, pow_zero]
      ring
    | succ n =>
      simp only [List.set_cons_succ, List.getD_cons_succ, sem_cons]
      rw [ih n v (by simpa using hk), pow_succ]
      ring

theorem sem_replicate (p : ℕ) (x : ZMod p) (n : ℕ) :
    sem p (List.replicate n 0) x = 0 := by
  induction n with
  | zero => rfl
  | succ m ih => simp [List.replicate_succ, sem_cons, ih]

theorem length_foldl_set (p : ℕ) (ai : Int) (b : List Int) (i : ℕ) :
    ∀ (js : List ℕ) (r : List Int),
      (js.foldl (fun acc j => acc.set (i + j)
        (FieldElement.add (p : Int) (acc.getD (i + j) 0)
          (FieldElement.mul (p : Int) ai (b.getD j 0)))) r).length = r.length := by
  intro js
  induction js with
  | nil => intro r; rfl
  | cons j js ih =>
    intro r
    rw [List.foldl_cons, ih, List.length_set]

theorem sem_mul_inner (p : ℕ) (x : ZMod p) (ai : Int) (b : List Int) (i : ℕ) :
    ∀ (js : List ℕ) (r : List Int), (∀ j ∈ js, i + j < r.length) →
      sem p (js.foldl (fun acc j => acc.set (i + j)
          (FieldElement.add (p : Int) (acc.getD (i + j) 0)
            (FieldElement.mul (p : Int) ai (b.getD j 0)))) r) x
        = sem p r x
          + (js.map (fun j => x ^ (i + j) * (ai : ZMod p) * ((b.getD j 0 : Int) : ZMod p))).sum := by
  intro js
  induction js with
  | nil => intro r _; simp
  | cons j js ih =>
    intro r hb
    rw [List.foldl_cons]
    rw [ih _ (by
      intro j2 hj2
      rw [List.length_set]
      exact hb j2 (List.mem_cons_of_mem j hj2))]
    rw [sem_set p x r (i + j) _ (hb j (List.mem_cons_self j js))]
    rw [castMul]
    simp only [List.map_cons, List.sum_cons]
    ring

theorem sem_range_sum (p : ℕ) (x : ZMod p) (ai : Int) :
    ∀ (b : List Int) (i : ℕ),
      ((List.range b.length).map
        (fun j => x ^ (i + j) * (ai : ZMod p) * ((b.getD j 0 : Int) : ZMod p))).sum
        = x ^ i * (ai : ZMod p) * sem p b x := by
  intro b
  induction b with
  | nil => intro i; simp [sem_nil]
  | cons hd tl ih =>
    intro i
    rw [List.length_cons, List.range_succ_eq_map, List.map_cons, List.sum_cons,
      List.map_map]
    have hmap : ((List.range tl.length).map
        ((fun j => x ^ (i + j) * (ai : ZMod p) * (((hd :: tl).getD j 0 : Int) : ZMod p))
          ∘ Nat.succ)).sum
        = ((List.range tl.length).map
          (fun j => x ^ ((i + 1) + j) * (ai : ZMod p) * ((tl.getD j 0 : Int) : ZMod p))).sum := by
      refine congrArg _ (List.map_congr_left ?_)
      intro j _
      simp only [Function.comp_apply, List.getD_cons_succ]
      have hj : i + Nat.succ j = i + 1 + j := by omega
      rw [hj]
    rw [hmap, ih (i + 1), sem_cons, List.getD_cons_zero, pow_succ]
    ring

theorem sem_mul_outer (p : ℕ) (x : ZMod p) (a b : List Int) (hb : b ≠ []) :
    ∀ (is : List ℕ) (r : List Int), r.length = a.length + b.length - 1 →
      (∀ i ∈ is, i < a.length) →
      sem p (is.foldl
        (fun res i => (List.range b.length).foldl
          (fun acc j => acc.set (i + j)
            (FieldElement.add (p : Int) (acc.getD (i + j) 0)
              (FieldElement.mul (p : Int) (a.getD i 0) (b.getD j 0)))) res) r) x
        = sem p r x
          + (is.map (fun i => x ^ i * ((a.getD i 0 : Int) : ZMod p) * sem p b x)).sum := by
  intro is
  induction is with
  | nil => intro r _ _; simp
  | cons i is ih =>
    intro r hr hbound
    rw [List.foldl_cons]
    have hblen : 0 < b.length := List.length_pos.mpr hb
    have hia : i < a.length := hbound i (List.mem_cons_self i is)
    have hinner := sem_mul_inner p x (a.getD i 0) b i (List.range b.length) r (by
      intro j hj
      rw [List.mem_range] at hj
      omega)
    rw [ih _ (by rw [length_foldl_set]; exact hr)
      (fun i2 hi2 => hbound i2 (List.mem_cons_of_mem i hi2))]
    rw [hinner, sem_range_sum]
    simp only [List.map_cons, List.sum_cons]
    ring

theorem foldl_const {α β : Type} : ∀ (l : List β) (r : α), l.foldl (fun acc _ => acc) r = r
  | [], _ => rfl
  | _ :: t, r => foldl_const t r

theorem sem_eq_range_sum (p : ℕ) (x : ZMod p) (c : List Int) :
    ((List.range c.length).map (fun j => x ^ j * ((c.getD j 0 : Int) : ZMod p))).sum
      = sem p c x := by
  have h := sem_range_sum p x 1 c 0
  simp only [zero_add, Int.cast_one, pow_zero, one_mul, mul_one] at h
  rw [← h]

theorem sem_mul (p : ℕ) (c d : List Int) (x : ZMod p) :
    sem p (Poly.mul (p : Int) c d) x = sem p c x * sem p d x := by
  cases d with
  | nil =>
    simp only [Poly.mul, List.length_nil, List.range_zero, List.foldl_nil, Nat.add_zero]
    rw [foldl_const, sem_replicate, sem_nil, mul_zero]
  | cons dh dt =>
    cases c with
    | nil =>
      simp only [Poly.mul, List.length_nil, List.range_zero, List.foldl_nil, Nat.zero_add]
      rw [sem_replicate, sem_nil, zero_mul]
    | cons ch ct =>
      rw [Poly.mul]
      rw [sem_mul_outer p x (ch :: ct) (dh :: dt) (by simp) (List.range (ch :: ct).length)
        (List.replicate ((ch :: ct).length + (dh :: dt).length - 1) 0)
        (by rw [List.length_replicate]) (by intro i hi; simpa using hi)]
      rw [sem_replicate, zero_add]
      rw [List.sum_map_mul_right, sem_eq_range_sum]

theorem natAbs_tmod (b a : Int) : (Int.tmod b a).natAbs = b.natAbs % a.natAbs := by
  cases b <;> cases a <;>
    simp only [Int.tmod, Int.natAbs_neg, Int.ofNat_eq_coe, Int.natAbs_negSucc] <;>
    norm_cast

theorem extended_euclidean_go_bezout :
    ∀ (fuel : Nat) (a b : Int), a.natAbs < fuel →
      a * (FieldElement.extended_euclidean_go fuel a b).2.1
        + b * (FieldElement.extended_euclidean_go fuel a b).2.2
        = (FieldElement.extended_euclidean_go fuel a b).1 := by
  intro fuel
  induction fuel with
  | zero => omega
  | succ f ih =>
    intro a b hfuel
    by_cases ha : a = 0
    · simp [FieldElement.extended_euclidean_go, ha]
    · have hlt := FieldElement.natAbs_tmod_lt b ha
      simp only [FieldElement.extended_euclidean_go, if_neg ha]
      have hih := ih (Int.tmod b a) a (by omega)
      have ht : Int.tmod b a = b - a * Int.tdiv b a := Int.tmod_def b a
      set r := FieldElement.extended_euclidean_go f (Int.tmod b a) a with hr
      linear_combination hih - r.2.1 * ht

theorem extended_euclidean_bezout (a b : Int) :
    a * (FieldElement.extended_euclidean a b).2.1
      + b * (FieldElement.extended_euclidean a b).2.2
      = (FieldElement.extended_euclidean a b).1 :=
  extended_euclidean_go_bezout (a.natAbs + 1) a b (by omega)

theorem extended_euclidean_go_gcd :
    ∀ (fuel : Nat) (a b : Int), a.natAbs < fuel → 0 ≤ a → 0 ≤ b →
      (FieldElement.extended_euclidean_go fuel a b).1 = (Int.gcd a b : Int) := by
  intro fuel
  induction fuel with
  | zero => omega
  | succ f ih =>
    intro a b hfuel ha hb
    by_cases ha0 : a = 0
    · subst ha0
      simp [FieldElement.extended_euclidean_go, Int.gcd, Int.natAbs_of_nonneg hb]
    · have hlt := FieldElement.natAbs_tmod_lt b ha0
      simp only [FieldElement.extended_euclidean_go, if_neg ha0]
      rw [ih (Int.tmod b a) a (by omega) (Int.tmod_nonneg a hb) ha]
      have hrec : Int.gcd (Int.tmod b a) a = Int.gcd a b := by
        have h1 : (Int.tmod b a).natAbs = b.natAbs % a.natAbs := natAbs_tmod b a
        rw [Int.gcd, Int.gcd, h1]
        exact (Nat.gcd_rec a.natAbs b.natAbs).symm
      rw [hrec]

theorem extended_euclidean_gcd (a b : Int) (ha : 0 ≤ a) (hb : 0 ≤ b) :
    (FieldElement.extended_euclidean a b).1 = (Int.gcd a b : Int) :=
  extended_euclidean_go_gcd (a.natAbs + 1) a b (by omega) ha hb

theorem inverse_mul_cancel (p : ℕ) (hp : p.Prime) (a : Int) (ha : 0 ≤ a)
    (hnd : ¬ ((p : Int) ∣ a)) :
    ((FieldElement.inverse (p : Int) a : Int) : ZMod p) * (a : ZMod p) = 1 := by
  have hg : (FieldElement.extended_euclidean a (p : Int)).1 = (Int.gcd a (p : Int) : Int) :=
    extended_euclidean_gcd a (p : Int) ha (by positivity)
  have hcop : Int.gcd a (p : Int) = 1 := by
    have hnd' : ¬ (p ∣ a.natAbs) := by
      intro hd
      apply hnd
      have := Int.natCast_dvd_natCast.mpr hd
      rwa [Int.natAbs_of_nonneg ha] at this
    have hcoprime : Nat.Coprime p a.natAbs := (Nat.Prime.coprime_iff_not_dvd hp).mpr hnd'
    rw [Int.gcd, Int.natAbs_ofNat]
    exact Nat.coprime_comm.mp hcoprime
  have hbez := extended_euclidean_bezout a (p : Int)
  rw [hg, hcop] at hbez
  have hz : (a : ZMod p) * (((FieldElement.extended_euclidean a (p : Int)).2.1 : Int) : ZMod p)
      = 1 := by
    have hcast := congrArg (fun z : Int => (z : ZMod p)) hbez
    simp only [Int.cast_add, Int.cast_mul, Int.cast_one] at hcast
    rw [natCast_int_zmod_self] at hcast
    simpa using hcast
  have hinv : ((FieldElement.inverse (p : Int) a : Int) : ZMod p)
      = (((FieldElement.extended_euclidean a (p : Int)).2.1 : Int) : ZMod p) := by
    simp only [FieldElement.inverse]
    by_cases hx : (FieldElement.extended_euclidean a (p : Int)).2.1 < 0
    · rw [if_pos hx, castAbs, castTmod, Int.cast_add, natCast_int_zmod_self, zero_add]
    · rw [if_neg hx, castAbs, castTmod, abs_of_nonneg (not_lt.mp hx)]
  rw [hinv, mul_comm]
  exact hz

theorem evaluate_fold_cast (p : ℕ) (xv : Int) :
    ∀ (c : List Int) (acc pw : Int),
      (((c.foldl (fun (st : Int × Int) coeff =>
          (FieldElement.add (p : Int) st.1 (FieldElement.mul (p : Int) coeff st.2),
           FieldElement.mul (p : Int) st.2 xv)) (acc, pw)).1 : Int) : ZMod p)
        = (acc : ZMod p) + (pw : ZMod p) * sem p c (xv : ZMod p) := by
  intro c
  induction c with
  | nil => intro acc pw; simp [sem_nil]
  | cons a t ih =>
    intro acc pw
    rw [List.foldl_cons, ih, castAdd, castMul, castMul, sem_cons]
    ring

theorem evaluate_cast (p : ℕ) (c : List Int) (xv : Int) :
    ((Poly.evaluate (p : Int) c xv : Int) : ZMod p) = sem p c (xv : ZMod p) := by
  cases c with
  | nil => simp [Poly.evaluate, sem_nil]
  | cons a t =>
    rw [show Poly.evaluate (p : Int) (a :: t) xv
        = ((a :: t).foldl (fun (st : Int × Int) coeff =>
            (FieldElement.add (p : Int) st.1 (FieldElement.mul (p : Int) coeff st.2),
             FieldElement.mul (p : Int) st.2 xv)) ((0 : Int), (1 : Int))).1 from rfl]
    rw [evaluate_fold_cast]
    simp

theorem abs_nonneg_of_pos {p : Int} (hp : 0 < p) (a : Int) :
    0 ≤ FieldElement.abs p a := by
  have h1 : 0 ≤ a % p := Int.emod_nonneg a (ne_of_gt hp)
  simp only [FieldElement.abs]
  split_ifs <;> omega

theorem evaluate_nonneg {p : Int} (hp : 0 < p) (c : List Int) (x : Int) :
    0 ≤ Poly.evaluate p c x := by
  have hfold : ∀ (c : List Int) (acc pw : Int), 0 ≤ acc →
      0 ≤ (c.foldl (fun (st : Int × Int) coeff =>
        (FieldElement.add p st.1 (FieldElement.mul p coeff st.2),
         FieldElement.mul p st.2 x)) (acc, pw)).1 := by
    intro c
    induction c with
    | nil => intro acc pw hacc; exact hacc
    | cons a t ih =>
      intro acc pw hacc
      rw [List.foldl_cons]
      exact ih _ _ (abs_nonneg_of_pos hp _)
  cases c with
  | nil => exact le_refl 0
  | cons a t => exact hfold (a :: t) 0 1 (le_refl 0)

theorem eq_true_of_cast (p : ℕ) (hp : 0 < p) {e y : Int} (he : 0 ≤ e) (hy : 0 ≤ y)
    (hcast : (e : ZMod p) = (y : ZMod p)) :
    FieldElement.eq (p : Int) e y = true := by
  have hp' : (0 : Int) ≤ (p : Int) := by positivity
  simp only [FieldElement.eq, beq_iff_eq]
  rw [Int.tmod_eq_emod he hp', Int.tmod_eq_emod hy hp']
  exact (ZMod.intCast_eq_intCast_iff' .. ).mp hcast

theorem sem_lagrangeBasis (p : ℕ) (x : ZMod p) (xi xj : Int) :
    sem p (Poly.lagrangeBasis (p : Int) xi xj) x
      = (x - (xj : ZMod p))
        * ((FieldElement.inverse (p : Int) (FieldElement.sub (p : Int) xi xj) : Int) : ZMod p) := by
  rw [Poly.lagrangeBasis, sem_mul, sem_sub]
  simp [sem_cons, sem_nil]

theorem sem_lagrangeValue (p : ℕ) (x : ZMod p) (i : Nat) (xi : Int) :
    ∀ (E : List (Nat × (Int × Int))) (v : List Int),
      sem p (E.foldl (fun value je =>
          if i = je.1 then value
          else Poly.mul (p : Int) value (Poly.lagrangeBasis (p : Int) xi je.2.1)) v) x
        = sem p v x
          * (E.map (fun je => if i = je.1 then (1 : ZMod p)
              else sem p (Poly.lagrangeBasis (p : Int) xi je.2.1) x)).prod := by
  intro E
  induction E with
  | nil => intro v; simp
  | cons je E ih =>
    intro v
    rw [List.foldl_cons, List.map_cons, List.prod_cons]
    by_cases hij : i = je.1
    · rw [if_pos hij, if_pos hij, ih, one_mul]
    · rw [if_neg hij, if_neg hij, ih, sem_mul]
      ring

theorem sem_lagrange_fold (p : ℕ) (x : ZMod p) (pts : List (Int × Int)) :
    ∀ (E : List (Nat × (Int × Int))) (acc : List Int),
      sem p (E.foldl (fun acc ie =>
          Poly.add (p : Int) acc
            (Poly.lagrangeValue (p : Int) pts.enum ie.1 ie.2.1 ie.2.2)) acc) x
        = sem p acc x
          + (E.map (fun ie =>
              sem p (Poly.lagrangeValue (p : Int) pts.enum ie.1 ie.2.1 ie.2.2) x)).sum := by
  intro E
  induction E with
  | nil => intro acc; simp
  | cons ie E ih =>
    intro acc
    rw [List.foldl_cons, List.map_cons, List.sum_cons, ih, sem_add]
    ring

theorem mem_enum_spec {α : Type} {l : List α} {ie : Nat × α} (h : ie ∈ l.enum) :
    ∃ hlt : ie.1 < l.length, l.get ⟨ie.1, hlt⟩ = ie.2 := by
  have h2 := List.mem_enum_iff_getElem?.mp h
  rw [List.getElem?_eq_some] at h2
  obtain ⟨hlt, hg⟩ := h2
  exact ⟨hlt, by simpa [List.get_eq_getElem] using hg⟩

theorem enum_mem_self {α : Type} (l : List α) (k : Nat) (hk : k < l.length) :
    (k, l.get ⟨k, hk⟩) ∈ l.enum := by
  rw [List.mem_enum_iff_getElem?]
  simp [List.getElem?_eq_getElem hk, List.get_eq_getElem]

theorem sum_enumFrom_single (p : ℕ) (k : Nat) (F : Nat × (Int × Int) → ZMod p) :
    ∀ (l : List (Int × Int)) (s : Nat),
      (∀ ie ∈ List.enumFrom s l, ie.1 ≠ k → F ie = 0) →
      ((List.enumFrom s l).map F).sum
        = if h : s ≤ k ∧ k - s < l.length then F (k, l.get ⟨k - s, h.2⟩) else 0 := by
  intro l
  induction l with
  | nil =>
    intro s _
    rw [dif_neg (by simp)]
    simp
  | cons a t ih =>
    intro s hz
    rw [List.enumFrom_cons, List.map_cons, List.sum_cons,
      ih (s + 1) (fun ie hie hne => hz ie (List.mem_cons_of_mem _ hie) hne)]
    by_cases hsk : s = k
    · subst hsk
      rw [dif_neg (by omega), dif_pos ⟨le_refl s, by simp⟩]
      simp
    · have h0 : F (s, a) = 0 := hz (s, a) (List.mem_cons_self _ _) hsk
      by_cases hsk2 : s + 1 ≤ k ∧ k - (s + 1) < t.length
      · rw [dif_pos hsk2, dif_pos ⟨by omega, by simp only [List.length_cons]; omega⟩, h0,
          zero_add]
        have hidx : k - s = (k - (s + 1)) + 1 := by omega
        congr 1
        simp only [hidx, List.get_eq_getElem, List.getElem_cons_succ]
      · rw [dif_neg hsk2, dif_neg (by simp only [List.length_cons]; omega), h0, zero_add]

/-- C2: the source `pow` squares the running result `exponent.element` times,
so it computes `base^(2^exponent)` rather than `base^exponent`.  Evaluating
the embedded code at base `2`, exponent `3` over the prime-97 field returns
`62 = 2^8 mod 97`, while `base^exponent.value mod prime = 2^3 mod 97 = 8`. -/
theorem C2_pow_eval :
    FieldElement.pow 97 2 3 = 62 ∧ (2 : Int) ^ 3 % 97 = 8 ∧ (62 : Int) ≠ 8 := by
  refine ⟨?_, by decide, by decide⟩
  rfl

/-- C4 counterexample: over the prime-97 field, the subtraction `3 - 6`
stores `191` (not in `[0, 97)`), and `value()` of the negation of that
result returns `100`, which is not the canonical representative in
`[0, 97)` (the canonical representative of `-(3-6) = 3` is `3`). -/
theorem C4_value_counterexample :
    FieldElement.sub 97 3 6 = 191 ∧ ¬ (191 : Int) < 97 ∧
      FieldElement.value 97 (FieldElement.neg 97 (FieldElement.sub 97 3 6)) = 100 ∧
      ¬ (100 : Int) < 97 := by
  refine ⟨by rfl, by decide, by rfl, by decide⟩

/-- C4 amended: for operands with non-negative stored values, the results of
`add`, `sub` and `mul` have stored values in `[0, 2*prime)` — landing in
`[prime, 2*prime)` when a negative intermediate occurs, because `abs` adds
the prime again after `rem_euclid` — and `value()` on them returns the
correct canonical representative in `[0, prime)`; `neg` performs no
reduction at all, so its stored value can be negative and `value()` on such
an element can exceed the prime (see the counterexample). -/
theorem C4_canonical_amended (p a b : Int) (hp : 0 < p) (ha : 0 ≤ a) (hb : 0 ≤ b) :
    (0 ≤ FieldElement.add p a b ∧ FieldElement.add p a b < 2 * p ∧
      FieldElement.value p (FieldElement.add p a b) = (a + b) % p) ∧
    (0 ≤ FieldElement.sub p a b ∧ FieldElement.sub p a b < 2 * p ∧
      FieldElement.value p (FieldElement.sub p a b) = (a - b) % p) ∧
    (0 ≤ FieldElement.mul p a b ∧ FieldElement.mul p a b < 2 * p ∧
      FieldElement.value p (FieldElement.mul p a b) = (a * b) % p) ∧
    (∀ x : Int, 0 ≤ x →
      0 ≤ FieldElement.value p x ∧ FieldElement.value p x < p) := by
  have hp' : p ≠ 0 := ne_of_gt hp
  have habs_nonneg : ∀ x : Int, 0 ≤ x → FieldElement.abs p x = x % p := by
    intro x hx
    simp [FieldElement.abs, not_lt.mpr hx]
  have hrange : ∀ x : Int, 0 ≤ x % p ∧ x % p < p := fun x =>
    ⟨Int.emod_nonneg x hp', Int.emod_lt_of_pos x hp⟩
  have hvalue : ∀ x : Int, 0 ≤ x →
      0 ≤ FieldElement.value p x ∧ FieldElement.value p x < p := by
    intro x hx
    rw [FieldElement.value, habs_nonneg x hx]
    exact hrange x
  have hval_of_lt : ∀ x : Int, 0 ≤ x → x < p → FieldElement.value p x = x := by
    intro x hx hxp
    rw [FieldElement.value, habs_nonneg x hx]
    exact Int.emod_eq_of_lt hx hxp
  refine ⟨?_, ?_, ?_, hvalue⟩
  · have h1 : FieldElement.add p a b = (a + b) % p :=
      habs_nonneg _ (by omega)
    refine ⟨by rw [h1]; exact (hrange _).1, by rw [h1]; have := (hrange (a+b)).2; omega, ?_⟩
    rw [h1, hval_of_lt _ (hrange _).1 (hrange _).2]
  · rcases lt_or_le (a - b) 0 with hneg | hpos
    · have h1 : FieldElement.sub p a b = (a - b) % p + p := by
        simp [FieldElement.sub, FieldElement.abs, hneg]
      have h2 := hrange (a - b)
      refine ⟨by omega, by omega, ?_⟩
      rw [h1, FieldElement.value, habs_nonneg _ (by omega),
        show (a - b) % p + p = (a - b) % p + 1 * p by ring,
        Int.add_mul_emod_self, Int.emod_emod]
    · have h1 : FieldElement.sub p a b = (a - b) % p :=
        habs_nonneg _ hpos
      have h2 := hrange (a - b)
      refine ⟨by omega, by omega, ?_⟩
      rw [h1, hval_of_lt _ h2.1 h2.2]
  · have h1 : FieldElement.mul p a b = ((a % p) * (b % p)) % p := by
      rw [FieldElement.mul, habs_nonneg a ha, habs_nonneg b hb,
        habs_nonneg _ (mul_nonneg (hrange a).1 (hrange b).1)]
    have h2 := hrange ((a % p) * (b % p))
    refine ⟨by omega, by omega, ?_⟩
    rw [h1, hval_of_lt _ h2.1 h2.2]
    exact (Int.mul_emod a b p).symm

/-- Witness for `C4_canonical_amended` at `p = 97`, `a = 3`, `b = 6`. -/
theorem C4_canonical_amended_witness :
    (0 : Int) < 97 ∧
    ((0 ≤ FieldElement.add 97 3 6 ∧ FieldElement.add 97 3 6 < 2 * 97 ∧
      FieldElement.value 97 (FieldElement.add 97 3 6) = ((3 : Int) + 6) % 97) ∧
    (0 ≤ FieldElement.sub 97 3 6 ∧ FieldElement.sub 97 3 6 < 2 * 97 ∧
      FieldElement.value 97 (FieldElement.sub 97 3 6) = ((3 : Int) - 6) % 97) ∧
    (0 ≤ FieldElement.mul 97 3 6 ∧ FieldElement.mul 97 3 6 < 2 * 97 ∧
      FieldElement.value 97 (FieldElement.mul 97 3 6) = ((3 : Int) * 6) % 97) ∧
    (∀ x : Int, 0 ≤ x →
      0 ≤ FieldElement.value 97 x ∧ FieldElement.value 97 x < 97)) :=
  ⟨by decide, C4_canonical_amended 97 3 6 (by decide) (by decide) (by decide)⟩

/-- C5 counterexample: over the prime-97 field the all-zero one-coefficient
polynomial `[0]` has `degree() = 0`, not the claimed `-1`; and the non-zero
constant `[5]` has `degree() = 1`, not the claimed index `0` of its highest
non-zero coefficient. -/
theorem C5_degree_counterexample :
    Poly.degree 97 [0] = 0 ∧ (0 : Int) ≠ -1 ∧
      Poly.degree 97 [5] = 1 ∧ (1 : Int) ≠ 0 := by
  refine ⟨by rfl, by decide, by rfl, by decide⟩

/-- C5 amended: `degree()` returns `-1` only for an empty coefficient list;
for a non-empty list whose coefficients are all congruent to zero it returns
`0`; and when index `k` holds the highest coefficient not divisible by the
prime it returns `k + 1` (one more than the index of the highest non-zero
coefficient, so a non-zero constant has degree `1`). -/
theorem C5_degree_amended (p : Int) (cs : List Int) :
    (cs = [] → Poly.degree p cs = -1) ∧
    (cs ≠ [] → (∀ x ∈ cs, p ∣ x) → Poly.degree p cs = 0) ∧
    (∀ k, (hk : k < cs.length) → ¬ p ∣ cs.get ⟨k, hk⟩ →
      (∀ j, (hj : j < cs.length) → k < j → p ∣ cs.get ⟨j, hj⟩) →
      Poly.degree p cs = (k : Int) + 1) := by
  refine ⟨fun hc => by simp [Poly.degree, hc], fun hc hall => ?_, fun k hk hknz hup => ?_⟩
  · have hnone : cs.reverse.findIdx? (fun s => !(FieldElement.eq p s 0)) = none := by
      rw [List.findIdx?_eq_none_iff]
      intro x hx
      have : FieldElement.eq p x 0 = true :=
        (Poly.eq_zero_iff_dvd p x).mpr (hall x (List.mem_reverse.mp hx))
      simp [this]
    simp [Poly.degree, hc, hnone]
  · have hcne : ¬ cs.isEmpty = true := by
      rw [List.isEmpty_iff]
      intro h
      subst h
      simp at hk
    have hknz' : ¬ FieldElement.eq p cs[k] 0 = true := by
      rw [Poly.eq_zero_iff_dvd]
      simpa [List.get_eq_getElem] using hknz
    have hlen : cs.length - 1 - k < cs.reverse.length := by
      rw [List.length_reverse]; omega
    have hidx : cs.reverse.findIdx? (fun s => !(FieldElement.eq p s 0))
        = some (cs.length - 1 - k) := by
      rw [List.findIdx?_eq_some_iff_getElem]
      refine ⟨hlen, ?_, ?_⟩
      · rw [List.getElem_reverse]
        have hsimp : cs.length - 1 - (cs.length - 1 - k) = k := by
          rw [List.length_reverse] at hlen; omega
        simp only [hsimp]
        simp [hknz']
      · intro j hj
        have hjlen : j < cs.reverse.length := Nat.lt_trans hj hlen
        rw [List.getElem_reverse]
        have hjc : cs.length - 1 - j < cs.length := by
          rw [List.length_reverse] at hjlen; omega
        have hdvd : p ∣ cs.get ⟨cs.length - 1 - j, hjc⟩ :=
          hup (cs.length - 1 - j) hjc (by rw [List.length_reverse] at hjlen; omega)
        have heq : FieldElement.eq p (cs.get ⟨cs.length - 1 - j, hjc⟩) 0 = true :=
          (Poly.eq_zero_iff_dvd p _).mpr hdvd
        simp only [List.get_eq_getElem] at heq
        simp [heq]
    rw [Poly.degree, if_neg hcne, hidx]
    show (cs.length : Int) - ((cs.length - 1 - k : Nat) : Int) = (k : Int) + 1
    have hk' : k < cs.length := hk
    omega

/-- Witness for `C5_degree_amended` at `p = 97`, `c = [5, 0]`, `k = 0`:
the highest coefficient not divisible by 97 sits at index 0 and
`degree` returns `1`. -/
theorem C5_degree_amended_witness : Poly.degree 97 [5, 0] = (0 : Int) + 1 := by
  refine (C5_degree_amended 97 [5, 0]).2.2 0 (by decide) (by decide) ?_
  intro j hj hlt
  have hj2 : j < 2 := by simpa using hj
  interval_cases j
  exact dvd_zero 97

/-- C7 counterexample: with `rate = 2`, `capacity = 1` the claimed initial
state would have length `rate + capacity = 3`, but the code's initial state
is `[value, 0]` of length `2` (the zero-vector construction multiplies two
one-element arrays elementwise), here at `value = 15` over the prime-97
field. -/
theorem C7_init_counterexample :
    RescueHash.initState 97 (2 + 1) 15 = [15, 0] ∧
      (RescueHash.initState 97 (2 + 1) 15).length = 2 ∧ (2 : Nat) ≠ 2 + 1 := by
  refine ⟨by rfl, by rfl, by decide⟩

/-- C7 amended: for every configured rate and capacity, `hash` initialises
its state to `[value, 0]` of length exactly `2` — `value` in the first slot
followed by a single field zero — which matches the claimed
`[value, 0, …]` of length `rate + capacity` exactly when
`rate + capacity = 2`. -/
theorem C7_init_amended (p : Int) (state_len : Nat) (value : Int) :
    RescueHash.initState p state_len value = [value, 0] ∧
      ((RescueHash.initState p state_len value).length = state_len ↔ state_len = 2) := by
  have hmul : FieldElement.mul p 0 (state_len : Int) = 0 := by
    simp [FieldElement.mul, FieldElement.abs]
  constructor
  · simp [RescueHash.initState, hmul]
  · simp [RescueHash.initState]
    constructor
    · intro h
      omega
    · intro h
      omega

/-- Witness for `C7_init_amended` at `p = 97`, `state_len = 2`, `value = 15`. -/
theorem C7_init_amended_witness :
    RescueHash.initState 97 2 15 = [15, 0] ∧
      ((RescueHash.initState 97 2 15).length = 2 ↔ 2 = 2) :=
  C7_init_amended 97 2 15

/-- C10: the digest is independent of the S-box exponent: the results of
both `state.map(|x| x.pow(..))` calls are discarded by the source, so two
hashers agreeing on rate, capacity, MDS matrix and round constants (over the
same field) but with different `alpha`/`alpha_inv` hash every input to the
same output. -/
theorem C10_hash_alpha_independent (p : Int) (h1 h2 : RescueHash.Params)
    (hr : h1.rate = h2.rate) (hc : h1.capacity = h2.capacity)
    (hm : h1.mds_matrix = h2.mds_matrix) (hk : h1.constants = h2.constants)
    (v : Int) :
    RescueHash.hash p h1 v = RescueHash.hash p h2 v := by
  cases h1
  cases h2
  simp only at hr hc hm hk
  subst hr
  subst hc
  subst hm
  subst hk
  rfl

/-- Witness for `C10_hash_alpha_independent`: two concrete prime-97 hashers
with `alpha = 5` and `alpha = 11` (and different stored inverses) but equal
rate, capacity, MDS matrix and constants produce the same digest function. -/
theorem C10_hash_alpha_independent_witness :
    RescueHash.hash 97 ⟨5, 39, 1, 1, [[1, 2], [3, 4]], [7, 8, 9, 10, 11, 12]⟩ 15
      = RescueHash.hash 97 ⟨11, 53, 1, 1, [[1, 2], [3, 4]], [7, 8, 9, 10, 11, 12]⟩ 15 :=
  C10_hash_alpha_independent 97 _ _ rfl rfl rfl rfl 15

/-- C9: `MerkleTree::new` succeeds exactly when the leaf count is a
(non-zero) power of two: the construction asserts the count is non-zero and
that `len & (len - 1) == 0`. -/
theorem C9_new_iff (h : Int → Int) (leafs : List Int) :
    (MerkleTree.new h leafs).isSome ↔ ∃ k, leafs.length = 2 ^ k := by
  unfold MerkleTree.new
  by_cases h0 : leafs.length = 0
  · rw [if_pos h0]
    simp only [Option.isSome_none, Bool.false_eq_true, false_iff]
    rintro ⟨k, hk⟩
    rw [h0] at hk
    exact absurd hk.symm (Nat.two_pow_pos k).ne'
  · rw [if_neg h0]
    by_cases h1 : leafs.length &&& (leafs.length - 1) = 0
    · rw [if_neg (by simpa using h1)]
      simp only [Option.isSome_some, true_iff]
      exact (and_pred_eq_zero_iff h0).mp h1
    · rw [if_pos (by simpa using h1)]
      simp only [Option.isSome_none, Bool.false_eq_true, false_iff]
      rintro ⟨k, hk⟩
      exact h1 ((and_pred_eq_zero_iff h0).mpr ⟨k, hk⟩)

/-- Witness for `C9_new_iff`: a four-leaf construction succeeds. -/
theorem C9_new_iff_witness :
    (MerkleTree.new (fun v => v) [1, 2, 3, 4]).isSome := by
  exact (C9_new_iff (fun v => v) [1, 2, 3, 4]).mpr ⟨2, rfl⟩

/-- C8 counterexample: over the prime-97 field with the deterministic hasher
`hC` and hashed leaf level `[2, 3]`, the first `commit` returns root `6` and
pushes levels `[[2, 3], [6]]`; the second `commit` returns the same root `6`
but pushes the derived level again, leaving `levels = [[2, 3], [6], [6]]` —
so the tree's state after the second call differs from the state after a
single `commit`. -/
theorem C8_commit_counterexample :
    MerkleTree.commit 97 hC ⟨[2, 3], [[2, 3]]⟩ = some (6, ⟨[2, 3], [[2, 3], [6]]⟩) ∧
    MerkleTree.commit 97 hC ⟨[2, 3], [[2, 3], [6]]⟩
      = some (6, ⟨[2, 3], [[2, 3], [6], [6]]⟩) ∧
    (⟨[2, 3], [[2, 3], [6], [6]]⟩ : MerkleTree.State) ≠ ⟨[2, 3], [[2, 3], [6]]⟩ := by
  refine ⟨by decide, by decide, by decide⟩

/-- C8 amended: a second `commit` after a successful `commit` returns the
same root value (the derivation only reads the stored hashed leafs, which
`commit` never changes), but it does not leave the state unchanged: it
appends the derived levels to `levels` a second time. -/
theorem C8_commit_amended (p : Int) (h : Int → Int) (t : MerkleTree.State)
    (root : Int) (t1 : MerkleTree.State)
    (hc : MerkleTree.commit p h t = some (root, t1)) :
    t1.leafs = t.leafs ∧
    MerkleTree.commit p h t1 =
      some (root, ⟨t1.leafs, t1.levels ++ (MerkleTree.commitLoop p h t.leafs []).1⟩) := by
  simp only [MerkleTree.commit] at hc ⊢
  cases hh : (MerkleTree.commitLoop p h t.leafs []).2.head? with
  | none => rw [hh] at hc; exact absurd hc (by simp)
  | some r =>
    rw [hh] at hc
    simp only [Option.some.injEq, Prod.mk.injEq] at hc
    obtain ⟨hr, ht1⟩ := hc
    subst hr
    subst ht1
    exact ⟨rfl, by simp [hh]⟩

/-- Witness for `C8_commit_amended` at the concrete prime-97 two-leaf tree
with hashed leaf level `[2, 3]`. -/
theorem C8_commit_amended_witness :
    (⟨[2, 3], [[2, 3], [6]]⟩ : MerkleTree.State).leafs
        = (⟨[2, 3], [[2, 3]]⟩ : MerkleTree.State).leafs ∧
    MerkleTree.commit 97 hC ⟨[2, 3], [[2, 3], [6]]⟩ =
      some (6, ⟨(⟨[2, 3], [[2, 3], [6]]⟩ : MerkleTree.State).leafs,
        (⟨[2, 3], [[2, 3], [6]]⟩ : MerkleTree.State).levels
          ++ (MerkleTree.commitLoop 97 hC
                (⟨[2, 3], [[2, 3]]⟩ : MerkleTree.State).leafs []).1⟩) :=
  C8_commit_amended 97 hC ⟨[2, 3], [[2, 3]]⟩ 6 ⟨[2, 3], [[2, 3], [6]]⟩ (by decide)

/-- C1: the Merkle round trip fails on the code: `prove` pushes the element
*and* its sibling at every level plus the final root, while `verify` expects
a path of siblings only, so replaying folds the leaf with itself.  Over the
prime-97 field with hasher `hC` and leaves `[1, 2]`: the committed root is
`6`, `prove` on the hashed leaf `hC 1 = 2` at index `0` returns
`Some [2, 3, 6]`, and `verify(root, 0, path, hashed_leaf)` replays
`hC(hC(hC(2+2)+3)+6) = 16 ≠ 6` and returns `false`, contradicting the
claimed round trip. -/
theorem C1_merkle_round_trip_eval :
    MerkleTree.new hC [1, 2] = some ⟨[2, 3], [[2, 3]]⟩ ∧
    MerkleTree.commit 97 hC ⟨[2, 3], [[2, 3]]⟩ = some (6, ⟨[2, 3], [[2, 3], [6]]⟩) ∧
    MerkleTree.prove 97 hC ⟨[2, 3], [[2, 3], [6]]⟩ (hC 1) = some [2, 3, 6] ∧
    MerkleTree.verify 97 hC 6 0 [2, 3, 6] (hC 1) = some false := by
  refine ⟨by decide, by decide, by decide, by decide⟩

/-- C3: the source divides the raw `i128` leading coefficients with Rust's
truncating integer `/` instead of field division, and computes the quotient
length with an unsigned subtraction.  Dividing the canonical non-zero
constant `[3]` by the canonical non-zero constant `[2]` over the prime-97
field loops forever (the dividend reaches `[1]`, where `1 / 2 = 0` and
subtracting the zero term leaves `[1]` unchanged), and dividing `[1]` by the
canonical polynomial `x = [0, 1]` panics on the `usize` underflow
`1 - 2 + 1`; in both cases no pair `(Q, R)` with `Q*D + R = P` and
`degree(R) < degree(D)` is produced. -/
theorem C3_div_eval :
    (∀ fuel, Poly.div 97 [3] [2] fuel = none) ∧
    (∀ fuel, Poly.div 97 [1] [0, 1] fuel = none) := by
  constructor
  · have hstep : ∀ (fuel : Nat) (result : List Int),
        Poly.divLoop 97 [2] 2 (fuel + 1) result [1]
          = Poly.divLoop 97 [2] 2 fuel (result.set 0 0) [1] := fun _ _ => rfl
    have hloop : ∀ (fuel : Nat) (result : List Int),
        Poly.divLoop 97 [2] 2 fuel result [1] = none := by
      intro fuel
      induction fuel with
      | zero => intro result; rfl
      | succ f ih =>
        intro result
        rw [hstep]
        exact ih _
    intro fuel
    show Poly.divLoop 97 [2] 2 fuel [0] [3] = none
    cases fuel with
    | zero => rfl
    | succ f =>
      have h1 : Poly.divLoop 97 [2] 2 (f + 1) [0] [3]
          = Poly.divLoop 97 [2] 2 f [1] [1] := rfl
      rw [h1]
      exact hloop f [1]
  · intro fuel
    rfl

/-- Witness for `C3_div_eval` at fuel 5. -/
theorem C3_div_eval_witness :
    Poly.div 97 [3] [2] 5 = none ∧ Poly.div 97 [1] [0, 1] 5 = none :=
  ⟨C3_div_eval.1 5, C3_div_eval.2 5⟩

/-- C6: interpolation exactness.  For canonical points over a prime field
with pairwise distinct x-coordinates, the polynomial built by
`lagrange_interpolation` evaluates (by the code's `evaluate` and the code's
field equality) to `y_i` at each `x_i`. -/
theorem C6_lagrange_exact (p : ℕ) (hp : p.Prime) (points : List (Int × Int))
    (hcanon : ∀ q ∈ points, 0 ≤ q.1 ∧ q.1 < (p : Int) ∧ 0 ≤ q.2 ∧ q.2 < (p : Int))
    (hdist : ∀ (m n : Nat) (hm : m < points.length) (hn : n < points.length), m ≠ n →
      ¬ ((p : Int) ∣ ((points.get ⟨m, hm⟩).1 - (points.get ⟨n, hn⟩).1)))
    (k : Nat) (hk : k < points.length) :
    FieldElement.eq (p : Int)
      (Poly.evaluate (p : Int) (Poly.lagrange_interpolation (p : Int) points)
        (points.get ⟨k, hk⟩).1)
      (points.get ⟨k, hk⟩).2 = true := by
  have hppos : (0 : Int) < (p : Int) := by exact_mod_cast hp.pos
  have hget_mem : points.get ⟨k, hk⟩ ∈ points := by
    simp only [List.get_eq_getElem]
    exact List.getElem_mem hk
  have hyk := hcanon _ hget_mem
  apply eq_true_of_cast p hp.pos (evaluate_nonneg hppos _ _) hyk.2.2.1
  rw [evaluate_cast, Poly.lagrange_interpolation, sem_lagrange_fold, sem_nil, zero_add]
  have hsub_ne : ∀ (j : Nat) (hj : j < points.length), j ≠ k →
      ¬ ((p : Int) ∣ FieldElement.sub (p : Int) (points.get ⟨k, hk⟩).1
        (points.get ⟨j, hj⟩).1) := by
    intro j hj hjk hdvd
    apply hdist k j hk hj (fun h => hjk h.symm)
    have hc : ((FieldElement.sub (p : Int) (points.get ⟨k, hk⟩).1
        (points.get ⟨j, hj⟩).1 : Int) : ZMod p) = 0 :=
      (ZMod.intCast_zmod_eq_zero_iff_dvd _ _).mpr hdvd
    rw [castSub, ← Int.cast_sub] at hc
    exact (ZMod.intCast_zmod_eq_zero_iff_dvd _ _).mp hc
  have hzero : ∀ ie ∈ points.enum, ie.1 ≠ k →
      sem p (Poly.lagrangeValue (p : Int) points.enum ie.1 ie.2.1 ie.2.2)
        ((points.get ⟨k, hk⟩).1 : ZMod p) = 0 := by
    intro ie hie hne
    rw [Poly.lagrangeValue, sem_lagrangeValue]
    have hkmem : ((k, points.get ⟨k, hk⟩) : Nat × (Int × Int)) ∈ points.enum :=
      enum_mem_self points k hk
    have hfactor0 : (if ie.1 = k then (1 : ZMod p)
        else sem p (Poly.lagrangeBasis (p : Int) ie.2.1 (points.get ⟨k, hk⟩).1)
          ((points.get ⟨k, hk⟩).1 : ZMod p)) = 0 := by
      rw [if_neg hne, sem_lagrangeBasis, sub_self, zero_mul]
    have hmem0 : (0 : ZMod p) ∈ points.enum.map (fun je =>
        if ie.1 = je.1 then (1 : ZMod p)
        else sem p (Poly.lagrangeBasis (p : Int) ie.2.1 je.2.1)
          ((points.get ⟨k, hk⟩).1 : ZMod p)) := by
      rw [← hfactor0]
      exact List.mem_map_of_mem _ hkmem
    rw [List.prod_eq_zero hmem0, mul_zero]
  have hvalk : sem p (Poly.lagrangeValue (p : Int) points.enum k
      (points.get ⟨k, hk⟩).1 (points.get ⟨k, hk⟩).2)
      ((points.get ⟨k, hk⟩).1 : ZMod p) = ((points.get ⟨k, hk⟩).2 : ZMod p) := by
    rw [Poly.lagrangeValue, sem_lagrangeValue]
    have hprod1 : (points.enum.map (fun je =>
        if k = je.1 then (1 : ZMod p)
        else sem p (Poly.lagrangeBasis (p : Int) (points.get ⟨k, hk⟩).1 je.2.1)
          ((points.get ⟨k, hk⟩).1 : ZMod p))).prod = 1 := by
      apply List.prod_eq_one
      intro z hz
      rw [List.mem_map] at hz
      obtain ⟨je, hje, rfl⟩ := hz
      by_cases hkj : k = je.1
      · rw [if_pos hkj]
      · rw [if_neg hkj, sem_lagrangeBasis]
        obtain ⟨hlt, hget⟩ := mem_enum_spec hje
        have hj1 : je.2.1 = (points.get ⟨je.1, hlt⟩).1 := by rw [hget]
        have hnd : ¬ ((p : Int) ∣ FieldElement.sub (p : Int) (points.get ⟨k, hk⟩).1
            je.2.1) := by
          rw [hj1]
          exact hsub_ne je.1 hlt (fun h => hkj h.symm)
        have hinv := inverse_mul_cancel p hp
          (FieldElement.sub (p : Int) (points.get ⟨k, hk⟩).1 je.2.1)
          (abs_nonneg_of_pos hppos _) hnd
        have hcs : ((FieldElement.sub (p : Int) (points.get ⟨k, hk⟩).1 je.2.1 : Int)
            : ZMod p) = ((points.get ⟨k, hk⟩).1 : ZMod p) - (je.2.1 : ZMod p) :=
          castSub p _ _
        rw [← hcs, mul_comm]
        exact hinv
    rw [hprod1, mul_one]
    simp [sem_cons, sem_nil]
  rw [show points.enum = List.enumFrom 0 points from rfl] at hzero hvalk ⊢
  rw [sum_enumFrom_single p k
    (fun ie => sem p (Poly.lagrangeValue (p : Int) (List.enumFrom 0 points)
      ie.1 ie.2.1 ie.2.2) ((points.get ⟨k, hk⟩).1 : ZMod p))
    points 0 (fun ie hie hne => hzero ie hie hne)]
  rw [dif_pos ⟨Nat.zero_le k, by simpa using hk⟩]
  simpa using hvalk

/-- Witness for `C6_lagrange_exact` at the prime-97 field with the points
`(1,7), (2,6), (3,8)` (the repository's own interpolation test) and `k = 0`. -/
theorem C6_lagrange_exact_witness :
    Nat.Prime 97 ∧
    FieldElement.eq ((97 : ℕ) : Int)
      (Poly.evaluate ((97 : ℕ) : Int)
        (Poly.lagrange_interpolation ((97 : ℕ) : Int) [(1, 7), (2, 6), (3, 8)])
        (([(1, 7), (2, 6), (3, 8)] : List (Int × Int)).get ⟨0, by decide⟩).1)
      (([(1, 7), (2, 6), (3, 8)] : List (Int × Int)).get ⟨0, by decide⟩).2 = true :=
  ⟨by norm_num,
    C6_lagrange_exact 97 (by norm_num) [(1, 7), (2, 6), (3, 8)] (by decide)
      (by
        intro m n hm hn hmn
        simp only [List.length_cons, List.length_nil] at hm hn
        interval_cases m <;> interval_cases n <;> simp_all <;> decide)
      0 (by decide)⟩
